import Mathlib

/-!
Shallow embedding of `src/SHA-256.py` (`sha256_simple` and its nested helpers).

Modelling conventions:
* a Python `str` message is a `List ℕ` of character code points (`ord c`);
* the bit-string intermediates (`to_binary`, `pad_message`, chunks) are `List Bool`,
  most significant bit first, one `Bool` per character of the Python string;
* Python's unbounded non-negative `int`s are `ℕ`; the one place where a negative
  integer appears (`~e` inside the `ch` expression) is modelled on `ℤ` with
  Mathlib's two's-complement bitwise operations (`Int.lnot`, `Int.land`, `Int.xor`);
* Python `while` loops are unrolled into their closed iteration count
  (`pad_message`) or run on a structurally decreasing counter (`extendWords`,
  `numDigits`), with the count justified in the accompanying theorems.

Definitions named after spec sections (`rotr`, `chSpec`, `roundSpec`,
`compressSpec`, `s0spec`, `s1spec`) follow the wording of `spec.md` and are
compared with the source-derived definitions in the refinement theorems.
-/

namespace SHA256

/-- Number of digits of `v` written in base `base` (at least one digit, so
`numDigits base v 0 = 1`, matching Python's `"0"`); the first argument of the
recursion is structural fuel, and `numDigits base v v` is always enough fuel. -/
def numDigits (base : ℕ) : ℕ → ℕ → ℕ
  | 0, _ => 1
  | fuel + 1, v => if v < base then 1 else numDigits base fuel (v / base) + 1

/-- Python `f"{n:0{width}b}"`: the binary digits of `n`, most significant first,
left-padded with zeros to at least `width` digits. -/
def pyBin (width n : ℕ) : List Bool :=
  let len := max width (numDigits 2 n n)
  (List.range len).map fun i => n.testBit (len - 1 - i)

/-- STEP 1, `to_binary`: each character's code point rendered as `f"{ord(c):08b}"`,
all concatenated. -/
def to_binary (msg : List ℕ) : List Bool :=
  (msg.map fun c => pyBin 8 c).flatten

/-- STEP 2, `pad_message`: append a single `1` bit, then `0` bits while
`(len(bin_msg) + 64) % 512 != 0` (that loop runs exactly
`(512 - (len + 64) % 512) % 512` times), then the original bit length as
`f"{original_len:064b}"`. -/
def pad_message (bin_msg : List Bool) : List Bool :=
  let original_len := bin_msg.length
  let withOne := bin_msg ++ [true]
  let k := (512 - (withOne.length + 64) % 512) % 512
  withOne ++ List.replicate k false ++ pyBin 64 original_len

/-- STEP 3, `create_chunks`: the slices `padded_msg[i:i+512]` for
`i in range(0, len(padded_msg), 512)`. -/
def create_chunks (padded_msg : List Bool) : List (List Bool) :=
  (List.range ((padded_msg.length + 511) / 512)).map fun j =>
    (padded_msg.drop (512 * j)).take 512

/-- Python `int(s, 2)` on a bit string, most significant bit first. -/
def bitsToNat (bs : List Bool) : ℕ :=
  bs.foldl (fun acc b => 2 * acc + (if b then 1 else 0)) 0

/-- One iteration of the `while len(words) < 64` loop in `create_words`.
The rotation sub-expressions in `s0`/`s1` are exactly the source's, with no
32-bit mask on the individual `>> | <<` combinations; only the appended word
is masked with `& 0xFFFFFFFF`. (`words[-j]` is `words[len(words) - j]`.) -/
def nextWord (words : List ℕ) : ℕ :=
  let x15 := words.getD (words.length - 15) 0
  let x2 := words.getD (words.length - 2) 0
  let s0 := ((x15 >>> 7) ||| (x15 <<< (32 - 7))) ^^^
    ((x15 >>> 18) ||| (x15 <<< (32 - 18))) ^^^ (x15 >>> 3)
  let s1 := ((x2 >>> 17) ||| (x2 <<< (32 - 17))) ^^^
    ((x2 >>> 19) ||| (x2 <<< (32 - 19))) ^^^ (x2 >>> 10)
  (words.getD (words.length - 16) 0 + s0 + words.getD (words.length - 7) 0 + s1) &&&
    0xFFFFFFFF

/-- The `while len(words) < 64` loop, run for a given number of iterations
(48 when called from `create_words` on a 16-word seed). -/
def extendWords : ℕ → List ℕ → List ℕ
  | 0, words => words
  | n + 1, words => extendWords n (words ++ [nextWord words])

/-- `create_words`: the sixteen 32-bit words `int(chunk[i:i+32], 2)` for
`i in range(0, 512, 32)`, extended to 64 words. -/
def create_words (chunk : List Bool) : List ℕ :=
  extendWords 48 ((List.range 16).map fun i => bitsToNat ((chunk.drop (32 * i)).take 32))

/-- STEP 4, `K`: the 64 round constants, `int(x, 16)` over the source's table of
hex words (written here in decimal). -/
def K : List ℕ :=
  [1116352408, 1899447441, 3049323471, 3921009573, 961987163, 1508970993,
   2453635748, 2870763221, 3624381080, 310598401, 607225278, 1426881987,
   1925078388, 2162078206, 2614888103, 3248222580, 3835390401, 4022224774,
   264347078, 604807628, 770255983, 1249150122, 1555081692, 1996064986,
   2554220882, 2821834349, 2952996808, 3210313671, 3336571891, 3584528711,
   113926993, 338241895, 666307205, 773529912, 1294757372, 1396182291,
   1695183700, 1986661051, 2177026350, 2456956037, 2730485921, 2820302411,
   3259730800, 3345764771, 3516065817, 3600352804, 4094571909, 275423344,
   430227734, 506948616, 659060556, 883997877, 958139571, 1322822218,
   1537002063, 1747873779, 1955562222, 2024104815, 2227730452, 2361852424,
   2428436474, 2756734187, 3204031479, 3329325298]

/-- `H`: the 8 initial hash values, `int(x, 16)` over the source's table of hex
words (written here in decimal). -/
def H : List ℕ :=
  [1779033703, 3144134277, 1013904242, 2773480762,
   1359893119, 2600822924, 528734635, 1541459225]

/-- Source helper `rightrotate`, masked to 32 bits. -/
def rightrotate (x n : ℕ) : ℕ :=
  ((x >>> n) ||| (x <<< (32 - n))) &&& 0xFFFFFFFF

/-- Python's `(e & f) ^ (~e & g)` on arbitrary-precision signed integers:
`~e` is `-(e+1)`, i.e. `Int.lnot`. -/
def ch_int (e f g : ℤ) : ℤ :=
  Int.xor (Int.land e f) (Int.land (Int.lnot e) g)

/-- The `ch` value of a round, as the natural number Python goes on to add. -/
def ch (e f g : ℕ) : ℕ := (ch_int e f g).toNat

/-- The tuple of working variables `a, b, c, d, e, f, g, h`. -/
abbrev State8 := ℕ × ℕ × ℕ × ℕ × ℕ × ℕ × ℕ × ℕ

/-- One iteration of `for i in range(64)`: the mixing expressions followed by
the register update, returned as the new `(a, b, c, d, e, f, g, h)`. -/
def round_step (ki wi : ℕ) (s : State8) : State8 :=
  let (a, b, c, d, e, f, g, h) := s
  let S1 := rightrotate e 6 ^^^ rightrotate e 11 ^^^ rightrotate e 25
  let chv := ch e f g
  let temp1 := (h + S1 + chv + ki + wi) &&& 0xFFFFFFFF
  let S0 := rightrotate a 2 ^^^ rightrotate a 13 ^^^ rightrotate a 22
  let maj := (a &&& b) ^^^ (a &&& c) ^^^ (b &&& c)
  let temp2 := (S0 + maj) &&& 0xFFFFFFFF
  ((temp1 + temp2) &&& 0xFFFFFFFF, a, b, c, (d + temp1) &&& 0xFFFFFFFF, e, f, g)

/-- The working variables as the list `[a, b, c, d, e, f, g, h]`. -/
def stateToList (s : State8) : List ℕ :=
  [s.1, s.2.1, s.2.2.1, s.2.2.2.1, s.2.2.2.2.1, s.2.2.2.2.2.1,
    s.2.2.2.2.2.2.1, s.2.2.2.2.2.2.2]

/-- Body of `for chunk in chunks`: unpack the hash state into the working
variables, run the 64 rounds, and mix the chunk hash back into the state with
`H = [(x + y) & 0xFFFFFFFF for x, y in zip(H, [a,...,h])]`. -/
def process_chunk (Hs : List ℕ) (chunk : List Bool) : List ℕ :=
  let w := create_words chunk
  let s := (List.range 64).foldl
    (fun t i => round_step (K.getD i 0) (w.getD i 0) t)
    (Hs.getD 0 0, Hs.getD 1 0, Hs.getD 2 0, Hs.getD 3 0,
      Hs.getD 4 0, Hs.getD 5 0, Hs.getD 6 0, Hs.getD 7 0)
  Hs.zipWith (fun x y => (x + y) &&& 0xFFFFFFFF) (stateToList s)

/-- Python `chr` of a single hexadecimal digit value, lowercase. -/
def hexDigitChar (n : ℕ) : Char :=
  if n < 10 then Char.ofNat (48 + n) else Char.ofNat (87 + n)

/-- Python `f"{value:08x}"`: lowercase hexadecimal digits of `value`, most
significant first, left-padded with zeros to at least 8 digits. -/
def toHex8 (v : ℕ) : List Char :=
  let len := max 8 (numDigits 16 v v)
  (List.range len).map fun i => hexDigitChar ((v >>> (4 * (len - 1 - i))) &&& 15)

/-- `sha256_simple`: the whole pipeline, returning the hex digest string. -/
def sha256_simple (message : List ℕ) : String :=
  let padded := pad_message (to_binary message)
  let chunks := create_chunks padded
  let Hfinal := chunks.foldl process_chunk H
  String.mk (Hfinal.map toHex8).flatten

/-! ### Definitions following the wording of `spec.md` (for refinement claims) -/

/-- Spec glossary `rotr`: circular right rotation of a 32-bit value. -/
def rotr (x n : ℕ) : ℕ := ((x >>> n) ||| (x <<< (32 - n))) % 2 ^ 32

/-- Spec section 4.3 `s0`: `rotr(W[i-15], 7) xor rotr(W[i-15], 18) xor shr(W[i-15], 3)`. -/
def s0spec (x : ℕ) : ℕ := rotr x 7 ^^^ rotr x 18 ^^^ (x >>> 3)

/-- Spec section 4.3 `s1`: `rotr(W[i-2], 17) xor rotr(W[i-2], 19) xor shr(W[i-2], 10)`. -/
def s1spec (x : ℕ) : ℕ := rotr x 17 ^^^ rotr x 19 ^^^ (x >>> 10)

/-- Spec section 4.4 `ch`, with `not` taken as the 32-bit complement. -/
def chSpec (e f g : ℕ) : ℕ := (e &&& f) ^^^ (((2 ^ 32 - 1) ^^^ e) &&& g)

/-- Spec section 4.4, round `i`: the mixing expressions followed by the register
shift `h←g, g←f, f←e, e←(d+temp1) mod 2^32, d←c, c←b, b←a, a←(temp1+temp2) mod 2^32`. -/
def roundSpec (ki wi : ℕ) (s : State8) : State8 :=
  let (a, b, c, d, e, f, g, h) := s
  let S1 := rotr e 6 ^^^ rotr e 11 ^^^ rotr e 25
  let chv := chSpec e f g
  let temp1 := (h + S1 + chv + ki + wi) % 2 ^ 32
  let S0 := rotr a 2 ^^^ rotr a 13 ^^^ rotr a 22
  let maj := (a &&& b) ^^^ (a &&& c) ^^^ (b &&& c)
  let temp2 := (S0 + maj) % 2 ^ 32
  ((temp1 + temp2) % 2 ^ 32, a, b, c, (d + temp1) % 2 ^ 32, e, f, g)

/-- Spec section 4.4 compressor: working variables `a..h` initialized from the
hash state (`a=H[0], …, h=H[7]`), 64 rounds, then the fold-back
`H[k] = (H[k] + {a,b,c,d,e,f,g,h}[k]) mod 2^32` for each of the 8 positions. -/
def compressSpec (Hs W : List ℕ) : List ℕ :=
  let s := (List.range 64).foldl
    (fun t i => roundSpec (K.getD i 0) (W.getD i 0) t)
    (Hs.getD 0 0, Hs.getD 1 0, Hs.getD 2 0, Hs.getD 3 0,
      Hs.getD 4 0, Hs.getD 5 0, Hs.getD 6 0, Hs.getD 7 0)
  (List.range 8).map fun k => (Hs.getD k 0 + (stateToList s).getD k 0) % 2 ^ 32

/-- The sixteen lowercase hexadecimal digit characters. -/
def lowerHexDigits : List Char := "0123456789abcdef".toList

/-! ### Kernel-evaluable forms

`ch` goes through `Nat.ldiff` (a well-founded recursion the kernel cannot
reduce on literals), so for concrete evaluation we use the following variants,
proved equal to the source-derived definitions below. -/

/-- Evaluable form of `ch`: `g ^^^ (g &&& e)` clears from `g` the bits set in
`e`, which is what `~e & g` does on a non-negative `g`. -/
def chC (e f g : ℕ) : ℕ := (e &&& f) ^^^ (g ^^^ (g &&& e))

/-- `round_step` with `ch` replaced by its evaluable form. -/
def round_stepC (ki wi : ℕ) (s : State8) : State8 :=
  let (a, b, c, d, e, f, g, h) := s
  let S1 := rightrotate e 6 ^^^ rightrotate e 11 ^^^ rightrotate e 25
  let chv := chC e f g
  let temp1 := (h + S1 + chv + ki + wi) &&& 0xFFFFFFFF
  let S0 := rightrotate a 2 ^^^ rightrotate a 13 ^^^ rightrotate a 22
  let maj := (a &&& b) ^^^ (a &&& c) ^^^ (b &&& c)
  let temp2 := (S0 + maj) &&& 0xFFFFFFFF
  ((temp1 + temp2) &&& 0xFFFFFFFF, a, b, c, (d + temp1) &&& 0xFFFFFFFF, e, f, g)

/-- `process_chunk` with the evaluable round. -/
def process_chunkC (Hs : List ℕ) (chunk : List Bool) : List ℕ :=
  let w := create_words chunk
  let s := (List.range 64).foldl
    (fun t i => round_stepC (K.getD i 0) (w.getD i 0) t)
    (Hs.getD 0 0, Hs.getD 1 0, Hs.getD 2 0, Hs.getD 3 0,
      Hs.getD 4 0, Hs.getD 5 0, Hs.getD 6 0, Hs.getD 7 0)
  Hs.zipWith (fun x y => (x + y) &&& 0xFFFFFFFF) (stateToList s)

/-- `sha256_simple` with the evaluable round. -/
def sha256C (message : List ℕ) : String :=
  let padded := pad_message (to_binary message)
  let chunks := create_chunks padded
  let Hfinal := chunks.foldl process_chunkC H
  String.mk (Hfinal.map toHex8).flatten

/-! ### Basic lemmas about the bit-level operations -/

/-- Unfolding `ch` on naturals: Python's `~e & g` is `Nat.ldiff g e`. -/
theorem ch_toNat (e f g : ℕ) : ch e f g = (e &&& f) ^^^ Nat.ldiff g e := rfl

theorem ldiff_eq_xor_and (g e : ℕ) : Nat.ldiff g e = g ^^^ (g &&& e) := by
  apply Nat.eq_of_testBit_eq
  intro i
  rw [Nat.testBit_ldiff, Nat.testBit_xor, Nat.testBit_and]
  cases g.testBit i <;> cases e.testBit i <;> rfl

theorem ch_eq_chC (e f g : ℕ) : ch e f g = chC e f g := by
  rw [ch_toNat, ldiff_eq_xor_and]
  rfl

theorem round_step_eq_C : round_step = round_stepC := by
  funext ki wi s
  obtain ⟨a, b, c, d, e, f, g, h⟩ := s
  simp only [round_step, round_stepC, ch_eq_chC]

theorem process_chunk_eq_C : process_chunk = process_chunkC := by
  funext Hs chunk
  simp only [process_chunk, process_chunkC, round_step_eq_C]

theorem sha256_simple_eq_C : sha256_simple = sha256C := by
  funext message
  simp only [sha256_simple, sha256C, process_chunk_eq_C]

/-! ### Helper lemmas -/

theorem and_mask_eq_mod (x : ℕ) : x &&& 0xFFFFFFFF = x % 2 ^ 32 := by
  have h : (0xFFFFFFFF : ℕ) = 2 ^ 32 - 1 := by norm_num
  rw [h]
  exact Nat.and_pow_two_sub_one_eq_mod x 32

theorem and_mask_lt (x : ℕ) : x &&& 0xFFFFFFFF < 2 ^ 32 := by
  rw [and_mask_eq_mod]
  exact Nat.mod_lt _ (by norm_num)

theorem getD_lt_of_forall_lt {l : List ℕ} (h : ∀ v ∈ l, v < 2 ^ 32) (i : ℕ) :
    l.getD i 0 < 2 ^ 32 := by
  rcases Nat.lt_or_ge i l.length with hi | hi
  · rw [List.getD_eq_getElem?_getD, List.getElem?_eq_getElem hi]
    exact h _ (List.getElem_mem hi)
  · rw [List.getD_eq_getElem?_getD, List.getElem?_eq_none hi]
    norm_num

theorem list_length_eight {α : Type} (l : List α) (hl : l.length = 8) :
    ∃ a b c d e f g h, l = [a, b, c, d, e, f, g, h] := by
  rcases l with _ | ⟨a, l⟩; · simp at hl
  rcases l with _ | ⟨b, l⟩; · simp at hl
  rcases l with _ | ⟨c, l⟩; · simp at hl
  rcases l with _ | ⟨d, l⟩; · simp at hl
  rcases l with _ | ⟨e, l⟩; · simp at hl
  rcases l with _ | ⟨f, l⟩; · simp at hl
  rcases l with _ | ⟨g, l⟩; · simp at hl
  rcases l with _ | ⟨h, l⟩; · simp at hl
  rcases l with _ | ⟨x, l⟩
  · exact ⟨a, b, c, d, e, f, g, h, rfl⟩
  · simp at hl

theorem mem_zipWith {α β γ : Type} {op : α → β → γ} :
    ∀ {l₁ : List α} {l₂ : List β} {c : γ}, c ∈ List.zipWith op l₁ l₂ → ∃ a b, c = op a b := by
  intro l₁
  induction l₁ with
  | nil => intro l₂ c hc; simp at hc
  | cons a l₁ ih =>
    intro l₂ c hc
    cases l₂ with
    | nil => simp at hc
    | cons b l₂ =>
      rcases List.mem_cons.mp hc with h | h
      · exact ⟨a, b, h⟩
      · exact ih h

theorem bitsToNat_go_lt (bs : List Bool) :
    ∀ acc : ℕ, bs.foldl (fun acc b => 2 * acc + (if b then 1 else 0)) acc <
      (acc + 1) * 2 ^ bs.length := by
  induction bs with
  | nil => intro acc; simp [Nat.lt_succ_self acc]
  | cons b bs ih =>
    intro acc
    simp only [List.foldl_cons, List.length_cons]
    have step := ih (2 * acc + (if b then 1 else 0))
    have hb : (if b then (1 : ℕ) else 0) ≤ 1 := by cases b <;> simp
    have hmul : (2 * acc + (if b then 1 else 0) + 1) * 2 ^ bs.length ≤
        (acc + 1) * 2 ^ (bs.length + 1) := by
      rw [Nat.pow_succ]
      have h2 : 2 * acc + (if b then (1 : ℕ) else 0) + 1 ≤ (acc + 1) * 2 := by omega
      calc (2 * acc + (if b then (1 : ℕ) else 0) + 1) * 2 ^ bs.length ≤
          ((acc + 1) * 2) * 2 ^ bs.length := Nat.mul_le_mul_right _ h2
        _ = (acc + 1) * (2 ^ bs.length * 2) := by ring
    exact lt_of_lt_of_le step hmul

theorem bitsToNat_lt (bs : List Bool) (h : bs.length ≤ 32) : bitsToNat bs < 2 ^ 32 := by
  have h1 := bitsToNat_go_lt bs 0
  have h2 : (2 : ℕ) ^ bs.length ≤ 2 ^ 32 := Nat.pow_le_pow_right (by norm_num) h
  calc bitsToNat bs < (0 + 1) * 2 ^ bs.length := h1
    _ = 2 ^ bs.length := by ring
    _ ≤ 2 ^ 32 := h2

theorem numDigits_le (base : ℕ) (hbase : 2 ≤ base) :
    ∀ (fuel v k : ℕ), 1 ≤ k → v < base ^ k → numDigits base fuel v ≤ k := by
  intro fuel
  induction fuel with
  | zero => intro v k hk _; simpa [numDigits] using hk
  | succ fuel ih =>
    intro v k hk hv
    by_cases hvb : v < base
    · simpa [numDigits, hvb] using hk
    · have hk2 : 2 ≤ k := by
        by_contra hlt
        have : k = 1 := by omega
        subst this
        simp at hv
        omega
      have hdiv : v / base < base ^ (k - 1) := by
        have hbpos : 0 < base := by omega
        rw [Nat.div_lt_iff_lt_mul hbpos]
        calc v < base ^ k := hv
          _ = base ^ (k - 1) * base := by
            rw [← Nat.pow_succ]
            congr 1
            omega
      have := ih (v / base) (k - 1) (by omega) hdiv
      simp only [numDigits, hvb, if_false]
      omega

theorem pyBin_length (width n : ℕ) :
    (pyBin width n).length = max width (numDigits 2 n n) := by
  simp [pyBin]

theorem pyBin_length_of_lt (width n : ℕ) (hw : 1 ≤ width) (h : n < 2 ^ width) :
    (pyBin width n).length = width := by
  rw [pyBin_length]
  exact Nat.max_eq_left (numDigits_le 2 (by norm_num) n n width hw h)

theorem to_binary_length (msg : List ℕ) (hb : ∀ c ∈ msg, c < 256) :
    (to_binary msg).length = 8 * msg.length := by
  induction msg with
  | nil => rfl
  | cons c msg ih =>
    have hc : c < 256 := hb c (List.mem_cons_self c msg)
    have hrest : ∀ x ∈ msg, x < 256 := fun x hx => hb x (List.mem_cons_of_mem c hx)
    simp only [to_binary, List.map_cons, List.flatten_cons, List.length_append,
      List.length_cons]
    rw [pyBin_length_of_lt 8 c (by norm_num) (by norm_num at hc ⊢; omega)]
    have := ih hrest
    simp only [to_binary] at this
    rw [this]
    ring

/-! ### The source bit tricks against the spec operations -/

theorem rightrotate_eq_rotr (x n : ℕ) : rightrotate x n = rotr x n := by
  simp only [rightrotate, rotr, and_mask_eq_mod]

theorem rotr_lt (x n : ℕ) : rotr x n < 2 ^ 32 :=
  Nat.mod_lt _ (by norm_num)

theorem shiftRight_lt_of_lt {x : ℕ} (h : x < 2 ^ 32) (n : ℕ) : x >>> n < 2 ^ 32 := by
  rw [Nat.shiftRight_eq_div_pow]
  exact lt_of_le_of_lt (Nat.div_le_self _ _) h

/-- The source's un-masked `x >> n1 | x << (32 - n1)` rotations, xor-combined and
only then reduced mod `2^32`, agree with the spec's masked rotations: the junk
above bit 31 is wiped by the final reduction. -/
theorem unmasked_sig_mod (x n1 n2 n3 : ℕ) (hx : x < 2 ^ 32) :
    (((x >>> n1) ||| (x <<< (32 - n1))) ^^^ ((x >>> n2) ||| (x <<< (32 - n2))) ^^^
        (x >>> n3)) % 2 ^ 32 =
      rotr x n1 ^^^ rotr x n2 ^^^ (x >>> n3) := by
  have hmask : ∀ y : ℕ, y % 2 ^ 32 = y &&& 0xFFFFFFFF := fun y => (and_mask_eq_mod y).symm
  rw [hmask, Nat.and_xor_distrib_right, Nat.and_xor_distrib_right]
  rw [← hmask, ← hmask, ← hmask]
  simp only [rotr]
  congr 1
  exact Nat.mod_eq_of_lt (shiftRight_lt_of_lt hx n3)

/-- `Nat.ldiff g e` (Python's `~e & g` for non-negative operands) is the spec's
`(not e) and g` with `not` the 32-bit complement, as long as both fit in 32 bits. -/
theorem ldiff_eq_not_and (e g : ℕ) (hg : g < 2 ^ 32) :
    Nat.ldiff g e = ((2 ^ 32 - 1) ^^^ e) &&& g := by
  apply Nat.eq_of_testBit_eq
  intro i
  rw [Nat.testBit_ldiff, Nat.testBit_and, Nat.testBit_xor, Nat.testBit_two_pow_sub_one]
  rcases Nat.lt_or_ge i 32 with hi | hi
  · simp only [hi, decide_True]
    cases e.testBit i <;> cases g.testBit i <;> rfl
  · have hgb : g.testBit i = false :=
      Nat.testBit_lt_two_pow (lt_of_lt_of_le hg (Nat.pow_le_pow_right (by norm_num) hi))
    simp [hgb]

theorem ch_eq_chSpec (e f g : ℕ) (hg : g < 2 ^ 32) :
    ch e f g = chSpec e f g := by
  rw [ch_toNat, ldiff_eq_not_and e g hg]
  rfl

theorem chSpec_lt (e f g : ℕ) (he : e < 2 ^ 32) (hg : g < 2 ^ 32) : chSpec e f g < 2 ^ 32 := by
  unfold chSpec
  have h1 : e &&& f < 2 ^ 32 := lt_of_le_of_lt Nat.and_le_left he
  have h2 : ((2 ^ 32 - 1) ^^^ e) &&& g < 2 ^ 32 := lt_of_le_of_lt Nat.and_le_right hg
  exact Nat.xor_lt_two_pow h1 h2

theorem nextWord_lt (words : List ℕ) : nextWord words < 2 ^ 32 := by
  simp only [nextWord]
  exact and_mask_lt _

/-- The new schedule word appended by the source loop equals the spec recurrence
value, provided the existing words are 32-bit. -/
theorem nextWord_spec (words : List ℕ) (hb : ∀ v ∈ words, v < 2 ^ 32) :
    nextWord words =
      (words.getD (words.length - 16) 0 + s0spec (words.getD (words.length - 15) 0) +
        words.getD (words.length - 7) 0 + s1spec (words.getD (words.length - 2) 0)) %
        2 ^ 32 := by
  have h15 := getD_lt_of_forall_lt hb (words.length - 15)
  have h2 := getD_lt_of_forall_lt hb (words.length - 2)
  have e0 := unmasked_sig_mod (words.getD (words.length - 15) 0) 7 18 3 h15
  have e1 := unmasked_sig_mod (words.getD (words.length - 2) 0) 17 19 10 h2
  simp only [nextWord, and_mask_eq_mod, s0spec, s1spec]
  have m0 : (((words.getD (words.length - 15) 0 >>> 7) |||
      (words.getD (words.length - 15) 0 <<< (32 - 7))) ^^^
      ((words.getD (words.length - 15) 0 >>> 18) |||
      (words.getD (words.length - 15) 0 <<< (32 - 18))) ^^^
      (words.getD (words.length - 15) 0 >>> 3)) ≡
      rotr (words.getD (words.length - 15) 0) 7 ^^^
      rotr (words.getD (words.length - 15) 0) 18 ^^^
      (words.getD (words.length - 15) 0 >>> 3) [MOD 2 ^ 32] := by
    unfold Nat.ModEq
    rw [e0]
    symm
    apply Nat.mod_eq_of_lt
    exact Nat.xor_lt_two_pow (Nat.xor_lt_two_pow (rotr_lt _ _) (rotr_lt _ _))
      (shiftRight_lt_of_lt h15 3)
  have m1 : (((words.getD (words.length - 2) 0 >>> 17) |||
      (words.getD (words.length - 2) 0 <<< (32 - 17))) ^^^
      ((words.getD (words.length - 2) 0 >>> 19) |||
      (words.getD (words.length - 2) 0 <<< (32 - 19))) ^^^
      (words.getD (words.length - 2) 0 >>> 10)) ≡
      rotr (words.getD (words.length - 2) 0) 17 ^^^
      rotr (words.getD (words.length - 2) 0) 19 ^^^
      (words.getD (words.length - 2) 0 >>> 10) [MOD 2 ^ 32] := by
    unfold Nat.ModEq
    rw [e1]
    symm
    apply Nat.mod_eq_of_lt
    exact Nat.xor_lt_two_pow (Nat.xor_lt_two_pow (rotr_lt _ _) (rotr_lt _ _))
      (shiftRight_lt_of_lt h2 10)
  exact (((Nat.ModEq.refl (words.getD (words.length - 16) 0)).add m0).add
    (Nat.ModEq.refl (words.getD (words.length - 7) 0))).add m1

/-! ### The message schedule against the spec recurrence -/

/-- Spec section 4.3 recurrence value `(W[i-16] + s0 + W[i-7] + s1) mod 2^32`,
with `s0`/`s1` the spec mixing functions of `W[i-15]` and `W[i-2]`. -/
def scheduleRecurrence (W : List ℕ) (i : ℕ) : ℕ :=
  (W.getD (i - 16) 0 + s0spec (W.getD (i - 15) 0) + W.getD (i - 7) 0 +
    s1spec (W.getD (i - 2) 0)) % 2 ^ 32

theorem extendWords_length : ∀ (n : ℕ) (words : List ℕ),
    (extendWords n words).length = words.length + n := by
  intro n
  induction n with
  | zero => intro words; simp [extendWords]
  | succ n ih =>
    intro words
    simp only [extendWords]
    rw [ih]
    simp
    omega

theorem extendWords_bounded : ∀ (n : ℕ) (words : List ℕ),
    (∀ v ∈ words, v < 2 ^ 32) → ∀ v ∈ extendWords n words, v < 2 ^ 32 := by
  intro n
  induction n with
  | zero => intro words hb; simpa [extendWords] using hb
  | succ n ih =>
    intro words hb
    simp only [extendWords]
    apply ih
    intro v hv
    rcases List.mem_append.mp hv with h | h
    · exact hb v h
    · rcases List.mem_singleton.mp h with rfl
      exact nextWord_lt words

theorem extendWords_getD_of_lt : ∀ (n : ℕ) (words : List ℕ) (i : ℕ), i < words.length →
    (extendWords n words).getD i 0 = words.getD i 0 := by
  intro n
  induction n with
  | zero => intro words i _; rfl
  | succ n ih =>
    intro words i hi
    simp only [extendWords]
    rw [ih _ i (by simp; omega)]
    exact List.getD_append _ _ _ _ hi

theorem scheduleRecurrence_append (words : List ℕ) (x : ℕ) (i : ℕ)
    (h16 : 16 ≤ i) (hi : i ≤ words.length) :
    scheduleRecurrence (words ++ [x]) i = scheduleRecurrence words i := by
  unfold scheduleRecurrence
  rw [List.getD_append _ _ _ _ (by omega), List.getD_append _ _ _ _ (by omega),
    List.getD_append _ _ _ _ (by omega), List.getD_append _ _ _ _ (by omega)]

/-- Appending the source loop's next word preserves the spec recurrence. -/
theorem extendWords_recurrence : ∀ (n : ℕ) (words : List ℕ), 16 ≤ words.length →
    (∀ v ∈ words, v < 2 ^ 32) →
    (∀ i, 16 ≤ i → i < words.length → words.getD i 0 = scheduleRecurrence words i) →
    ∀ i, 16 ≤ i → i < words.length + n →
      (extendWords n words).getD i 0 = scheduleRecurrence (extendWords n words) i := by
  intro n
  induction n with
  | zero => intro words _ _ hrec i h16 hi; simpa [extendWords] using hrec i h16 (by omega)
  | succ n ih =>
    intro words hlen hb hrec i h16 hi
    simp only [extendWords]
    have hlen1 : (words ++ [nextWord words]).length = words.length + 1 := by simp
    apply ih (words ++ [nextWord words]) (by omega) ?hb ?hrec i h16 (by omega)
    case hb =>
      intro v hv
      rcases List.mem_append.mp hv with h | h
      · exact hb v h
      · rcases List.mem_singleton.mp h with rfl
        exact nextWord_lt words
    case hrec =>
      intro j h16j hj
      rw [hlen1] at hj
      rcases Nat.lt_or_ge j words.length with hjl | hjl
      · rw [List.getD_append _ _ _ _ hjl, scheduleRecurrence_append _ _ _ h16j (by omega)]
        exact hrec j h16j hjl
      · have hje : j = words.length := by omega
        subst hje
        rw [List.getD_append_right _ _ _ _ (le_refl _), Nat.sub_self]
        simp only [List.getD_cons_zero]
        rw [scheduleRecurrence_append _ _ _ h16j (le_refl _)]
        rw [nextWord_spec words hb]
        rfl

theorem create_words_seed_getD (chunk : List Bool) (i : ℕ) (hi : i < 16) :
    ((List.range 16).map fun j => bitsToNat ((chunk.drop (32 * j)).take 32)).getD i 0 =
      bitsToNat ((chunk.drop (32 * i)).take 32) := by
  have hlen : ((List.range 16).map fun j =>
      bitsToNat ((chunk.drop (32 * j)).take 32)).length = 16 := by simp
  rw [List.getD_eq_getElem?_getD, List.getElem?_eq_getElem (by rw [hlen]; exact hi)]
  simp

theorem create_words_seed_bounded (chunk : List Bool) :
    ∀ v ∈ (List.range 16).map fun j => bitsToNat ((chunk.drop (32 * j)).take 32),
      v < 2 ^ 32 := by
  intro v hv
  rcases List.mem_map.mp hv with ⟨j, _, rfl⟩
  exact bitsToNat_lt _ (le_trans (List.length_take_le _ _) (le_refl 32))

/-! ### Padding lemmas -/

theorem pad_message_eq (bin : List Bool) :
    pad_message bin =
      bin ++ [true] ++
        List.replicate ((512 - (bin.length + 1 + 64) % 512) % 512) false ++
        pyBin 64 bin.length := by
  simp only [pad_message, List.length_append, List.length_cons, List.length_nil]

theorem pad_message_length (bin : List Bool) (h : bin.length < 2 ^ 64) :
    (pad_message bin).length =
      bin.length + 65 + (512 - (bin.length + 65) % 512) % 512 := by
  rw [pad_message_eq]
  simp only [List.length_append, List.length_replicate, List.length_cons, List.length_nil]
  rw [pyBin_length_of_lt 64 bin.length (by norm_num) h]
  omega

/-! ### Compression against the spec compressor -/

/-- All eight working variables fit in 32 bits. -/
def Bounded8 (s : State8) : Prop :=
  s.1 < 2 ^ 32 ∧ s.2.1 < 2 ^ 32 ∧ s.2.2.1 < 2 ^ 32 ∧ s.2.2.2.1 < 2 ^ 32 ∧
    s.2.2.2.2.1 < 2 ^ 32 ∧ s.2.2.2.2.2.1 < 2 ^ 32 ∧ s.2.2.2.2.2.2.1 < 2 ^ 32 ∧
    s.2.2.2.2.2.2.2 < 2 ^ 32

theorem round_step_eq_spec (ki wi : ℕ) (s : State8) (hb : Bounded8 s) :
    round_step ki wi s = roundSpec ki wi s := by
  obtain ⟨a, b, c, d, e, f, g, h⟩ := s
  obtain ⟨ha, hbb, hc, hd, he, hf, hg, hh⟩ := hb
  simp only [round_step, roundSpec, rightrotate_eq_rotr, and_mask_eq_mod,
    ch_eq_chSpec e f g hg]

theorem round_step_bounded (ki wi : ℕ) (s : State8) (hb : Bounded8 s) :
    Bounded8 (round_step ki wi s) := by
  obtain ⟨a, b, c, d, e, f, g, h⟩ := s
  obtain ⟨ha, hbb, hc, hd, he, hf, hg, hh⟩ := hb
  exact ⟨and_mask_lt _, ha, hbb, hc, and_mask_lt _, he, hf, hg⟩

theorem foldl_round_eq (w : List ℕ) :
    ∀ (l : List ℕ) (s : State8), Bounded8 s →
      l.foldl (fun t i => round_step (K.getD i 0) (w.getD i 0) t) s =
        l.foldl (fun t i => roundSpec (K.getD i 0) (w.getD i 0) t) s ∧
      Bounded8 (l.foldl (fun t i => round_step (K.getD i 0) (w.getD i 0) t) s) := by
  intro l
  induction l with
  | nil => intro s hs; exact ⟨rfl, hs⟩
  | cons i l ih =>
    intro s hs
    simp only [List.foldl_cons]
    rw [← round_step_eq_spec (K.getD i 0) (w.getD i 0) s hs]
    exact ih _ (round_step_bounded _ _ s hs)

theorem process_chunk_eq_spec (Hs : List ℕ) (chunk : List Bool)
    (hlen : Hs.length = 8) (hb : ∀ v ∈ Hs, v < 2 ^ 32) :
    process_chunk Hs chunk = compressSpec Hs (create_words chunk) := by
  have hinit : Bounded8 (Hs.getD 0 0, Hs.getD 1 0, Hs.getD 2 0, Hs.getD 3 0,
      Hs.getD 4 0, Hs.getD 5 0, Hs.getD 6 0, Hs.getD 7 0) :=
    ⟨getD_lt_of_forall_lt hb 0, getD_lt_of_forall_lt hb 1, getD_lt_of_forall_lt hb 2,
     getD_lt_of_forall_lt hb 3, getD_lt_of_forall_lt hb 4, getD_lt_of_forall_lt hb 5,
     getD_lt_of_forall_lt hb 6, getD_lt_of_forall_lt hb 7⟩
  obtain ⟨heq, -⟩ := foldl_round_eq (create_words chunk) (List.range 64) _ hinit
  simp only [process_chunk, compressSpec]
  rw [heq]
  obtain ⟨x0, x1, x2, x3, x4, x5, x6, x7, rfl⟩ := list_length_eight Hs hlen
  rw [show List.range 8 = [0, 1, 2, 3, 4, 5, 6, 7] by decide]
  simp [stateToList, and_mask_eq_mod]

theorem process_chunk_length (Hs : List ℕ) (chunk : List Bool) (h : Hs.length = 8) :
    (process_chunk Hs chunk).length = 8 := by
  simp only [process_chunk, List.length_zipWith, stateToList]
  simp [h]

theorem process_chunk_bounded (Hs : List ℕ) (chunk : List Bool) :
    ∀ v ∈ process_chunk Hs chunk, v < 2 ^ 32 := by
  intro v hv
  simp only [process_chunk] at hv
  obtain ⟨x, y, rfl⟩ := mem_zipWith hv
  exact and_mask_lt _

theorem foldl_process_length_bounded (chunks : List (List Bool)) :
    ∀ Hs : List ℕ, Hs.length = 8 → (∀ v ∈ Hs, v < 2 ^ 32) →
      (chunks.foldl process_chunk Hs).length = 8 ∧
      ∀ v ∈ chunks.foldl process_chunk Hs, v < 2 ^ 32 := by
  induction chunks with
  | nil => intro Hs h hb; exact ⟨h, hb⟩
  | cons c cs ih =>
    intro Hs h hb
    simp only [List.foldl_cons]
    exact ih _ (process_chunk_length Hs c h) (process_chunk_bounded Hs c)

/-! ### Hex output -/

theorem toHex8_length (v : ℕ) (hv : v < 2 ^ 32) : (toHex8 v).length = 8 := by
  have h16 : v < 16 ^ 8 := by
    have hpow : (16 : ℕ) ^ 8 = 2 ^ 32 := by norm_num
    omega
  simp only [toHex8, List.length_map, List.length_range]
  exact Nat.max_eq_left (numDigits_le 16 (by norm_num) v v 8 (by norm_num) h16)

theorem hexDigitChar_mem (n : ℕ) (h : n < 16) : hexDigitChar n ∈ lowerHexDigits := by
  have hall : ∀ m, m < 16 → hexDigitChar m ∈ lowerHexDigits := by decide
  exact hall n h

theorem toHex8_mem (v : ℕ) : ∀ c ∈ toHex8 v, c ∈ lowerHexDigits := by
  intro c hc
  simp only [toHex8, List.mem_map, List.mem_range] at hc
  obtain ⟨i, -, rfl⟩ := hc
  exact hexDigitChar_mem _ (lt_of_le_of_lt Nat.and_le_right (by norm_num))

theorem sum_map_all_eight {l : List ℕ} {f : ℕ → ℕ} (h : ∀ v ∈ l, f v = 8) :
    (l.map f).sum = 8 * l.length := by
  induction l with
  | nil => simp
  | cons a l ih =>
    have ha := h a (List.mem_cons_self a l)
    have hrest := ih fun v hv => h v (List.mem_cons_of_mem a hv)
    simp only [List.map_cons, List.sum_cons, List.length_cons, ha, hrest]
    ring

/-! ### Claim theorems -/

set_option maxRecDepth 8000
set_option linter.unusedVariables false

/-- C1: on the three-character input `"abc"` (code points 97, 98, 99) the digest
computation returns exactly the 64-character lowercase hex string
`ba7816bf8f01cfea414140de5dae2223b00361a396177a9cb410ff61f20015ad`. -/
theorem sha256_abc :
    sha256_simple [97, 98, 99] =
      "ba7816bf8f01cfea414140de5dae2223b00361a396177a9cb410ff61f20015ad" := by
  rw [sha256_simple_eq_C]
  decide

/-- C2: on the empty input the digest computation is defined and returns exactly
the 64-character lowercase hex string
`e3b0c44298fc1c149afbf4c8996fb92427ae41e4649b934ca495991b7852b855`. -/
theorem sha256_empty :
    sha256_simple [] =
      "e3b0c44298fc1c149afbf4c8996fb92427ae41e4649b934ca495991b7852b855" := by
  rw [sha256_simple_eq_C]
  decide

/-- C3: for every 512-bit block, `create_words` returns a 64-word schedule whose
words `W[0..15]` are the block's sixteen 32-bit slices in order, each read as an
unsigned big-endian 32-bit integer (`bitsToNat`), and whose words `W[i]` for
`i` in `16..63` satisfy the spec recurrence
`W[i] = (W[i-16] + s0 + W[i-7] + s1) mod 2^32` with the spec's masked rotations
(`scheduleRecurrence`). -/
theorem create_words_spec (chunk : List Bool) (hlen : chunk.length = 512) :
    (create_words chunk).length = 64 ∧
    (∀ i, i < 16 →
      (create_words chunk).getD i 0 = bitsToNat ((chunk.drop (32 * i)).take 32)) ∧
    (∀ i, 16 ≤ i → i < 64 →
      (create_words chunk).getD i 0 = scheduleRecurrence (create_words chunk) i) := by
  have hseed : ((List.range 16).map fun j =>
      bitsToNat ((chunk.drop (32 * j)).take 32)).length = 16 := by simp
  refine ⟨?_, ?_, ?_⟩
  · rw [create_words, extendWords_length, hseed]
  · intro i hi
    rw [create_words, extendWords_getD_of_lt _ _ _ (by rw [hseed]; exact hi)]
    exact create_words_seed_getD chunk i hi
  · intro i h16 hi
    rw [create_words]
    apply extendWords_recurrence 48 _ (by rw [hseed]) (create_words_seed_bounded chunk)
      ?_ i h16 (by rw [hseed]; omega)
    intro j hj hjl
    rw [hseed] at hjl
    omega

/-- Witness for C3 at the all-zero 512-bit block. -/
theorem create_words_spec_witness :
    (create_words (List.replicate 512 false)).length = 64 :=
  (create_words_spec (List.replicate 512 false) (by simp)).1

/-- C7: every word of the 64-word schedule of any 512-bit block is a natural
number strictly below `2^32` (the appended words are masked, the seed words are
32-bit reads), so the modular arithmetic never overflows the representation. -/
theorem create_words_masked (chunk : List Bool) (hlen : chunk.length = 512) :
    ∀ v ∈ create_words chunk, v < 2 ^ 32 := by
  rw [create_words]
  exact extendWords_bounded 48 _ (create_words_seed_bounded chunk)

/-- Witness for C7: the word 0 of the all-zero block's schedule is below `2^32`. -/
theorem create_words_masked_witness :
    (0 ∈ create_words (List.replicate 512 false)) ∧ (0 : ℕ) < 2 ^ 32 :=
  ⟨by decide, create_words_masked (List.replicate 512 false) (by simp) 0 (by decide)⟩

/-- C9: for 32-bit values `e`, `f`, `g`, Python's `(e & f) ^ (~e & g)` over
arbitrary-precision signed integers (`ch_int`, where `~e` is negative) is
non-negative, strictly below `2^32`, and equal to the FIPS 180-4 `Ch` function
with `NOT` taken as the 32-bit complement (`chSpec`). -/
theorem ch_int_spec (e f g : ℕ) (he : e < 2 ^ 32) (hf : f < 2 ^ 32) (hg : g < 2 ^ 32) :
    0 ≤ ch_int e f g ∧ ch_int e f g < 2 ^ 32 ∧ (ch_int e f g).toNat = chSpec e f g := by
  have hval : ch_int e f g = ((e &&& f) ^^^ Nat.ldiff g e : ℕ) := rfl
  have htoNat : (ch_int e f g).toNat = (e &&& f) ^^^ Nat.ldiff g e := by
    rw [hval]
    exact Int.toNat_natCast _
  have hlt : (e &&& f) ^^^ Nat.ldiff g e < 2 ^ 32 := by
    rw [ldiff_eq_not_and e g hg]
    exact chSpec_lt e f g he hg
  refine ⟨?_, ?_, ?_⟩
  · rw [hval]
    exact Int.natCast_nonneg _
  · rw [hval]
    exact_mod_cast hlt
  · rw [htoNat, ldiff_eq_not_and e g hg, chSpec]

/-- Witness for C9 at `e = 3`, `f = 5`, `g = 6`. -/
theorem ch_int_spec_witness :
    0 ≤ ch_int 3 5 6 ∧ ch_int 3 5 6 < 2 ^ 32 ∧ (ch_int 3 5 6).toNat = chSpec 3 5 6 :=
  ch_int_spec 3 5 6 (by norm_num) (by norm_num) (by norm_num)

/-- C5: for a byte-valued input of `L` characters (bit length `Lb = 8L`, with
`Lb < 2^64` so that the length field fits its 64 bits), the padded message is
the message bits, then a single `1` bit, then the minimum number `k ≥ 0` of `0`
bits making the length `≡ 448 (mod 512)` at that point, then `Lb` as a
big-endian 64-bit integer; the result's length is a multiple of 512 and at
least `Lb + 65`. -/
theorem pad_message_structure (msg : List ℕ) (hb : ∀ c ∈ msg, c < 256)
    (hsize : 8 * msg.length < 2 ^ 64) :
    ∃ k, pad_message (to_binary msg) =
        to_binary msg ++ [true] ++ List.replicate k false ++ pyBin 64 (8 * msg.length) ∧
      (8 * msg.length + 1 + k) % 512 = 448 ∧
      (∀ k2, (8 * msg.length + 1 + k2) % 512 = 448 → k ≤ k2) ∧
      (pyBin 64 (8 * msg.length)).length = 64 ∧
      (pad_message (to_binary msg)).length % 512 = 0 ∧
      8 * msg.length + 65 ≤ (pad_message (to_binary msg)).length := by
  have hlen := to_binary_length msg hb
  have hplen : (pad_message (to_binary msg)).length =
      8 * msg.length + 65 + (512 - (8 * msg.length + 65) % 512) % 512 := by
    rw [pad_message_length _ (by rw [hlen]; exact hsize), hlen]
  refine ⟨(512 - (8 * msg.length + 1 + 64) % 512) % 512, ?_, ?_, ?_, ?_, ?_, ?_⟩
  · rw [pad_message_eq, hlen]
  · omega
  · intro k2 hk2
    omega
  · exact pyBin_length_of_lt 64 _ (by norm_num) hsize
  · rw [hplen]
    omega
  · rw [hplen]
    omega

/-- Witness for C5 at the one-byte message `[97]`. -/
theorem pad_message_structure_witness :
    ∃ k, pad_message (to_binary [97]) =
        to_binary [97] ++ [true] ++ List.replicate k false ++ pyBin 64 (8 * [97].length) ∧
      (8 * [97].length + 1 + k) % 512 = 448 ∧
      (∀ k2, (8 * [97].length + 1 + k2) % 512 = 448 → k ≤ k2) ∧
      (pyBin 64 (8 * [97].length)).length = 64 ∧
      (pad_message (to_binary [97])).length % 512 = 0 ∧
      8 * [97].length + 65 ≤ (pad_message (to_binary [97])).length :=
  pad_message_structure [97] (by norm_num) (by norm_num)

/-- C6: for every byte-valued input of length `L` (with `8L + 64` within the
64-bit length field), the padded bit length is the unique smallest multiple of
512 that is at least `8L + 65`: it is a multiple of 512, at least `8L + 65`,
and no larger than any other such multiple. -/
theorem padded_length_least (msg : List ℕ) (hb : ∀ c ∈ msg, c < 256)
    (hsize : 8 * msg.length < 2 ^ 64) :
    (pad_message (to_binary msg)).length % 512 = 0 ∧
    8 * msg.length + 65 ≤ (pad_message (to_binary msg)).length ∧
    ∀ m, m % 512 = 0 → 8 * msg.length + 65 ≤ m →
      (pad_message (to_binary msg)).length ≤ m := by
  have hlen := to_binary_length msg hb
  have hplen : (pad_message (to_binary msg)).length =
      8 * msg.length + 65 + (512 - (8 * msg.length + 65) % 512) % 512 := by
    rw [pad_message_length _ (by rw [hlen]; exact hsize), hlen]
  refine ⟨by rw [hplen]; omega, by rw [hplen]; omega, ?_⟩
  intro m hm hge
  rw [hplen]
  omega

/-- Witness for C6 at the two-byte message `[97, 98]`. -/
theorem padded_length_least_witness :
    (pad_message (to_binary [97, 98])).length % 512 = 0 ∧
    8 * [97, 98].length + 65 ≤ (pad_message (to_binary [97, 98])).length ∧
    ∀ m, m % 512 = 0 → 8 * [97, 98].length + 65 ≤ m →
      (pad_message (to_binary [97, 98])).length ≤ m :=
  padded_length_least [97, 98] (by norm_num) (by norm_num)

/-- C10: for inputs whose characters all have code points at most 255,
`to_binary` produces exactly 8 bits per character, so the bit string has length
`8L` and the digest hashes the input as an `L`-byte sequence; for the input
containing the single character with code point 256, `to_binary` emits more
than 8 bits for that character, so the bit string does not have length `8L`. -/
theorem to_binary_bytes :
    (∀ msg : List ℕ, (∀ c ∈ msg, c ≤ 255) →
      (∀ c ∈ msg, (pyBin 8 c).length = 8) ∧ (to_binary msg).length = 8 * msg.length) ∧
    8 < (pyBin 8 256).length ∧ (to_binary [256]).length ≠ 8 * [256].length := by
  refine ⟨?_, by decide, by decide⟩
  intro msg hc
  have hc2 : ∀ c ∈ msg, c < 256 := fun c h => by have := hc c h; omega
  exact ⟨fun c h => pyBin_length_of_lt 8 c (by norm_num) (by have := hc2 c h; omega),
    to_binary_length msg hc2⟩

/-- Witness for C10 at the three-byte message `"abc"`. -/
theorem to_binary_bytes_witness :
    (∀ c ∈ [97, 98, 99], (pyBin 8 c).length = 8) ∧
    (to_binary [97, 98, 99]).length = 8 * [97, 98, 99].length :=
  to_binary_bytes.1 [97, 98, 99] (by norm_num)

/-- C4: for a hash state of 8 words below `2^32`, processing the blocks in order
with the source compressor is the same as folding the spec compressor
(`compressSpec`: working variables `a..h` initialized from the state, 64 rounds
ending in the register shift of `roundSpec`, then
`H[k] = (H[k] + {a,...,h}[k]) mod 2^32` for the 8 positions in order), with the
updated state of block `n` the input state of block `n+1`. -/
theorem compress_refines_spec (Hs : List ℕ) (chunks : List (List Bool))
    (hlen : Hs.length = 8) (hb : ∀ v ∈ Hs, v < 2 ^ 32) :
    chunks.foldl process_chunk Hs =
      chunks.foldl (fun Hc chunk => compressSpec Hc (create_words chunk)) Hs := by
  induction chunks generalizing Hs with
  | nil => rfl
  | cons c cs ih =>
    simp only [List.foldl_cons]
    rw [← process_chunk_eq_spec Hs c hlen hb]
    exact ih _ (process_chunk_length Hs c hlen) (process_chunk_bounded Hs c)

/-- Witness for C4: one all-zero block from the initial hash values. -/
theorem compress_refines_spec_witness :
    [List.replicate 512 false].foldl process_chunk H =
      [List.replicate 512 false].foldl
        (fun Hc chunk => compressSpec Hc (create_words chunk)) H :=
  compress_refines_spec H [List.replicate 512 false] (by decide) (by decide)

/-- C8: for every input (within the documented `2^64`-bit domain), the digest is
a string of exactly 64 characters, each a lowercase hexadecimal digit; it
serializes the final 8-word hash state word by word, each 32-bit word
contributing its 8 hex characters most significant first (`toHex8`). -/
theorem sha256_output_hex (msg : List ℕ) (hbits : (to_binary msg).length < 2 ^ 64) :
    (sha256_simple msg).length = 64 ∧
    (∀ c ∈ (sha256_simple msg).data, c ∈ lowerHexDigits) ∧
    sha256_simple msg = String.mk
      ((((create_chunks (pad_message (to_binary msg))).foldl process_chunk H).map
        toHex8).flatten) := by
  obtain ⟨hlen8, hball⟩ := foldl_process_length_bounded
    (create_chunks (pad_message (to_binary msg))) H (by decide) (by decide)
  refine ⟨?_, ?_, rfl⟩
  · simp only [sha256_simple, String.length_mk, List.length_flatten, List.map_map]
    have hgoal : (List.map (fun v => (toHex8 v).length)
        (List.foldl process_chunk H (create_chunks (pad_message (to_binary msg))))).sum =
        64 := by
      rw [sum_map_all_eight fun v hv => toHex8_length v (hball v hv), hlen8]
    exact hgoal
  · intro c hc
    simp only [sha256_simple, String.data] at hc
    rw [List.mem_flatten] at hc
    obtain ⟨l, hl, hcl⟩ := hc
    rw [List.mem_map] at hl
    obtain ⟨v, hv, rfl⟩ := hl
    exact toHex8_mem v c hcl

/-- Witness for C8 at the one-byte message `[97]`. -/
theorem sha256_output_hex_witness :
    (sha256_simple [97]).length = 64 ∧
    (∀ c ∈ (sha256_simple [97]).data, c ∈ lowerHexDigits) ∧
    sha256_simple [97] = String.mk
      ((((create_chunks (pad_message (to_binary [97]))).foldl process_chunk H).map
        toHex8).flatten) :=
  sha256_output_hex [97] (by decide)

end SHA256
